import Mathlib

/-!
Shallow embedding of the numeric core of `water_flow_visualization.py`:
grid construction, stream function, finite-difference velocity field,
separable Gaussian blur, bilinear resampling, semi-Lagrangian advection,
and the simulation loop.  Machine floats are modelled by exact reals;
2D arrays are total functions `ℤ → ℤ → ℝ` together with explicit
dimensions, with only the indices `0 ≤ i < H`, `0 ≤ j < W` meaningful
(out-of-range values of the functions are never read by the embedded
operations, which clip indices exactly as the numpy code does).
-/

noncomputable section

/-- `np.clip(v, lo, hi)` = `min (max v lo) hi`; numpy returns `hi` when
`lo > hi`, which this form reproduces.  Generic over the element order so
the same definition serves float and integer clipping. -/
def npClip {α : Type} [LinearOrder α] (v lo hi : α) : α :=
  min (max v lo) hi

/-- `np.linspace(0.0, 1.0, N, endpoint=False)` evaluated at index `k`:
start + k·(stop−start)/num = k/N. -/
def linspace01 (N : ℕ) (k : ℤ) : ℝ :=
  (k : ℝ) / (N : ℝ)

/-- `build_grid(resolution)` = `np.meshgrid(axis, axis, indexing="ij")` with
`axis = np.linspace(0, 1, N, endpoint=False)`.  With `indexing="ij"` the
first returned array varies along the row index (`first[i,j] = axis[i]`)
and the second along the column index (`second[i,j] = axis[j]`). -/
def build_grid (N : ℕ) : (ℤ → ℤ → ℝ) × (ℤ → ℤ → ℝ) :=
  (fun i _ => linspace01 N i, fun _ j => linspace01 N j)

/-- `stream_function(x, y, t)`: three-term time-varying stream function,
`base + 0.6*swirl + 0.25*ripple`. -/
def stream_function (x y t : ℝ) : ℝ :=
  Real.sin (2 * Real.pi * (3 * x + 0.7 * t)) * Real.sin (2 * Real.pi * (3 * y - 0.5 * t))
    + 0.6 * (Real.cos (2 * Real.pi * (2 * x - 0.3 * t)) * Real.cos (2 * Real.pi * (2 * y + 0.4 * t)))
    + 0.25 * Real.sin (2 * Real.pi * (4 * x + y + 0.2 * t))

/-- The stream function evaluated on the grid of `build_grid N`:
`psi = stream_function(x, y, t)` with `x, y = build_grid(resolution)`. -/
def psiGrid (N : ℕ) (t : ℝ) (i j : ℤ) : ℝ :=
  stream_function ((build_grid N).1 i j) ((build_grid N).2 i j) t

/-- `np.gradient(f, axis=0)` on an `N×N` array: one-sided differences at the
first and last row, central differences (divided by 2) in the interior. -/
def npGradientAxis0 (N : ℕ) (f : ℤ → ℤ → ℝ) (i j : ℤ) : ℝ :=
  if i = 0 then f 1 j - f 0 j
  else if i = (N : ℤ) - 1 then f ((N : ℤ) - 1) j - f ((N : ℤ) - 2) j
  else (f (i + 1) j - f (i - 1) j) / 2

/-- `np.gradient(f, axis=1)` on an `N×N` array. -/
def npGradientAxis1 (N : ℕ) (f : ℤ → ℤ → ℝ) (i j : ℤ) : ℝ :=
  if j = 0 then f i 1 - f i 0
  else if j = (N : ℤ) - 1 then f i ((N : ℤ) - 1) - f i ((N : ℤ) - 2)
  else (f i (j + 1) - f i (j - 1)) / 2

/-- Kernel half-width of `gaussian_blur`: `radius = int(max(1, sigma * 3))`;
Python `int` truncates a positive float, i.e. takes the floor. -/
def gaussianRadius (σ : ℝ) : ℤ :=
  ⌊max 1 (σ * 3)⌋

/-- Unnormalized kernel weight at offset `k`: `np.exp(-(offsets**2) / (2 * sigma**2))`. -/
def gaussianWeightRaw (σ : ℝ) (k : ℤ) : ℝ :=
  Real.exp (-((k : ℝ) ^ 2) / (2 * σ ^ 2))

/-- `weights.sum()` over the offsets `-radius .. radius`. -/
def gaussianNorm (σ : ℝ) : ℝ :=
  ∑ k in Finset.Icc (-gaussianRadius σ) (gaussianRadius σ), gaussianWeightRaw σ k

/-- Normalized kernel weight: `weights /= weights.sum()`. -/
def gaussianWeight (σ : ℝ) (k : ℤ) : ℝ :=
  gaussianWeightRaw σ k / gaussianNorm σ

/-- Zero-extension of an `H×W` array beyond its bounds, the implicit padding
of `np.convolve` (which treats its finite inputs as zero outside). -/
def zeroExt (H W : ℕ) (f : ℤ → ℤ → ℝ) (i j : ℤ) : ℝ :=
  if 0 ≤ i ∧ i < (H : ℤ) ∧ 0 ≤ j ∧ j < (W : ℤ) then f i j else 0

/-- One pass of `np.apply_along_axis(lambda m: np.convolve(m, weights, mode="same"), 0, ·)`
on an `H×W` array, for a symmetric odd kernel given by offset weights `w` on
`-r .. r`: output at `(i, j)` is `∑ k, w k * column (i - k)`, the centered
slice of the full zero-padded convolution. -/
def convolveAxis0 (w : ℤ → ℝ) (r : ℤ) (H W : ℕ) (f : ℤ → ℤ → ℝ) (i j : ℤ) : ℝ :=
  ∑ k in Finset.Icc (-r) r, w k * zeroExt H W f (i - k) j

/-- Same-mode 1D convolution along axis 1 (rows). -/
def convolveAxis1 (w : ℤ → ℝ) (r : ℤ) (H W : ℕ) (f : ℤ → ℤ → ℝ) (i j : ℤ) : ℝ :=
  ∑ k in Finset.Icc (-r) r, w k * zeroExt H W f i (j - k)

/-- `gaussian_blur(field, sigma)` on one channel of an `H×W` field: identity
for `sigma ≤ 0`, otherwise the axis-0 pass followed by the axis-1 pass with
the normalized Gaussian kernel.  (`np.apply_along_axis` applies the 1D
convolution to every 1D slice, so a multi-channel field is blurred
channel by channel; the embedding works on one channel.) -/
def gaussian_blur (H W : ℕ) (σ : ℝ) (f : ℤ → ℤ → ℝ) : ℤ → ℤ → ℝ :=
  if σ ≤ 0 then f
  else convolveAxis1 (gaussianWeight σ) (gaussianRadius σ) H W
    (fun i j => convolveAxis0 (gaussianWeight σ) (gaussianRadius σ) H W f i j)

/-- Direct 2D convolution with the outer-product Gaussian kernel under the
same zero-padding policy.  Modelled from the spec's words ("a direct 2D
Gaussian convolution with the same edge policy"): the comparison target of
the refinement claim, not code of the repository. -/
def gaussian2dConv (σ : ℝ) (H W : ℕ) (f : ℤ → ℤ → ℝ) (i j : ℤ) : ℝ :=
  ∑ k in Finset.Icc (-gaussianRadius σ) (gaussianRadius σ),
    ∑ l in Finset.Icc (-gaussianRadius σ) (gaussianRadius σ),
      gaussianWeight σ k * gaussianWeight σ l * zeroExt H W f (i - k) (j - l)

/-- `bilinear_sample(field, x, y)` on one channel of an `H×W` field at one
fractional coordinate pair: floor, clip the four corner indices, compute the
fractional offsets from the clipped corners, and blend. -/
def bilinear_sample (f : ℤ → ℤ → ℝ) (H W : ℕ) (x y : ℝ) : ℝ :=
  let x0 : ℤ := ⌊x⌋
  let y0 : ℤ := ⌊y⌋
  let x1 : ℤ := npClip (x0 + 1) 0 ((W : ℤ) - 1)
  let y1 : ℤ := npClip (y0 + 1) 0 ((H : ℤ) - 1)
  let x0c : ℤ := npClip x0 0 ((W : ℤ) - 1)
  let y0c : ℤ := npClip y0 0 ((H : ℤ) - 1)
  let fx : ℝ := x - (x0c : ℝ)
  let fy : ℝ := y - (y0c : ℝ)
  let top : ℝ := f y0c x0c * (1 - fx) + f y0c x1 * fx
  let bottom : ℝ := f y1 x0c * (1 - fx) + f y1 x1 * fx
  top * (1 - fy) + bottom * fy

/-- `advect(field, velocity, dt)` on one channel at grid point `(i, j)` of an
`H×W` field: backward-trace `x_back = j - dt*u`, `y_back = i - dt*v`, clip
into `[0, W-1]` × `[0, H-1]`, and bilinearly sample there. -/
def advect (f : ℤ → ℤ → ℝ) (H W : ℕ) (u v : ℤ → ℤ → ℝ) (dt : ℝ) (i j : ℤ) : ℝ :=
  bilinear_sample f H W
    (npClip ((j : ℝ) - dt * u i j) 0 ((W : ℝ) - 1))
    (npClip ((i : ℝ) - dt * v i j) 0 ((H : ℝ) - 1))

/-- The two velocity channels of `velocity_field(resolution, t, strength)`:
`u = np.gradient(psi, axis=0) * strength * resolution` blurred with `σ = 1`.
`np.apply_along_axis` blurs the stacked 2-channel array slice by slice, which
is the same as blurring each channel separately. -/
def velocityU (N : ℕ) (t strength : ℝ) : ℤ → ℤ → ℝ :=
  gaussian_blur N N 1 (fun i j => npGradientAxis0 N (psiGrid N t) i j * strength * (N : ℝ))

/-- Second velocity channel: `v = -np.gradient(psi, axis=1) * strength * resolution`,
blurred with `σ = 1`. -/
def velocityV (N : ℕ) (t strength : ℝ) : ℤ → ℤ → ℝ :=
  gaussian_blur N N 1 (fun i j => -npGradientAxis1 N (psiGrid N t) i j * strength * (N : ℝ))

/-- A dye buffer: an `N×N` array of 3-component colors. -/
def Dye : Type := ℤ → ℤ → Fin 3 → ℝ

/-- An emitted frame: 8-bit channel values (`ℕ`, proved ≤ 255 in range). -/
def Frame : Type := ℤ → ℤ → Fin 3 → ℕ

/-- `base_color = np.array([30, 90, 180])`. -/
def baseColor (c : Fin 3) : ℝ :=
  if c.val = 0 then 30 else if c.val = 1 then 90 else 180

/-- `np.linspace(-1, 1, N)` (endpoint included) at index `k`:
`-1 + 2k/(N-1)` for `N > 1`, and the single start value `-1` for `N ≤ 1`. -/
def linspaceSym (N : ℕ) (k : ℤ) : ℝ :=
  if N ≤ 1 then -1 else -1 + 2 * (k : ℝ) / ((N : ℝ) - 1)

/-- The radial vignette of `create_initial_dye`:
`np.clip(1 - 0.8 * np.hypot(*np.meshgrid(a, a)), 0.2, 1.0)` with
`a = np.linspace(-1, 1, N)`; default meshgrid indexing gives
`hypot[i,j] = sqrt(a[j]^2 + a[i]^2)`. -/
def vignette (N : ℕ) (i j : ℤ) : ℝ :=
  npClip (1 - 0.8 * Real.sqrt (linspaceSym N j ^ 2 + linspaceSym N i ^ 2)) 0.2 1

/-- `create_initial_dye(resolution)`: base color plus seeded Gaussian noise,
attenuated by the vignette, clipped to `[0, 255]`.  The noise array drawn
from `np.random.default_rng(42).normal(0, 20, ...)` is a fixed but not
exactly representable real array, so it is passed as an explicit parameter;
every theorem below holds for every noise array. -/
def create_initial_dye (noise : ℤ → ℤ → Fin 3 → ℝ) (N : ℕ) : Dye :=
  fun i j c => npClip ((baseColor c + noise i j c) * vignette N i j) 0 255

/-- One iteration of the simulation loop body applied to the dye buffer:
`dye = advect(dye, vel, dt)` followed by `dye = 0.995*dye + 0.005*base_dye`,
for a given velocity field `(u, v)`. -/
def stepDye (base d : Dye) (N : ℕ) (u v : ℤ → ℤ → ℝ) (dt : ℝ) : Dye :=
  fun i j c => 0.995 * advect (fun a b => d a b c) N N u v dt i j + 0.005 * base i j c

/-- The dye buffer after `n` iterations of the loop of `run_simulation`:
step `k` uses `t = k / steps * 6.0` and the velocity field computed from it.
`dye` starts as a copy of `base_dye = create_initial_dye(resolution)`. -/
def dyeAt (noise : ℤ → ℤ → Fin 3 → ℝ) (N : ℕ) (dt strength : ℝ) (steps : ℕ) : ℕ → Dye
  | 0 => create_initial_dye noise N
  | n + 1 =>
      stepDye (create_initial_dye noise N) (dyeAt noise N dt strength steps n) N
        (velocityU N ((n : ℝ) / (steps : ℝ) * 6) strength)
        (velocityV N ((n : ℝ) / (steps : ℝ) * 6) strength) dt

/-- `np.clip(dye, 0, 255).astype(np.uint8)` per channel: clip, then truncate
toward zero (floor, as the clipped value is nonnegative). -/
def toFrame (d : Dye) : Frame :=
  fun i j c => (⌊npClip (d i j c) 0 255⌋).toNat

/-- The list of frames appended by the loop, in generation order: frame `k`
is the dye buffer after `k + 1` iterations, clipped and cast to 8-bit. -/
def framesList (noise : ℤ → ℤ → Fin 3 → ℝ) (N : ℕ) (dt strength : ℝ) (steps : ℕ) :
    List Frame :=
  (List.range steps).map fun k => toFrame (dyeAt noise N dt strength steps (k + 1))

/-- The numeric fields of `SimulationConfig` (the I/O fields `output_dir`,
`gif_name`, `live_view`, `fps` only affect the excluded display/encoding
sinks).  `resolution` and `steps` are Python ints, hence `ℤ`. -/
structure SimulationConfig where
  resolution : ℤ
  steps : ℤ
  dt : ℝ
  strength : ℝ

/-- `run_simulation(config)`, including the points where the numpy code
raises instead of returning, modelled as `none`:
with `resolution < 0`, `np.full((R, R, 3), ...)` in `create_initial_dye`
raises before the loop; with `0 ≤ resolution < 7` and at least one loop
iteration, the first iteration raises — `np.gradient` needs at least 2
samples per axis (so `resolution ≥ 2`), and the σ=1 blur kernel has length
7, so `np.convolve(mode="same")` pads the velocity field to side
`max(resolution, 7)` and the subtraction in `advect` then fails to
broadcast `(R,R)` against `(max(R,7), max(R,7))` unless `R ≥ 7` — in both
cases before any frame is appended.  With `steps ≤ 0` the loop body never
runs (`range` of a non-positive count is empty) and the empty frame list is
returned.  No configuration validation of any kind is performed. -/
def run_simulation (noise : ℤ → ℤ → Fin 3 → ℝ) (cfg : SimulationConfig) :
    Option (List Frame) :=
  if cfg.resolution < 0 then none
  else if 0 < cfg.steps ∧ cfg.resolution < 7 then none
  else some (framesList noise cfg.resolution.toNat cfg.dt cfg.strength cfg.steps.toNat)

/-- The all-zero stand-in for the unknowable seeded noise array, used to
instantiate universally quantified theorems at concrete inputs. -/
def zeroNoise : ℤ → ℤ → Fin 3 → ℝ := fun _ _ _ => 0

/-- The loop iterates with the velocity held at zero at every step — the
hypothetical run of the dissipation property, built from the same loop body
`stepDye` as the real run. -/
def dyeZeroAt (base d0 : Dye) (N : ℕ) (dt : ℝ) : ℕ → Dye
  | 0 => d0
  | n + 1 => stepDye base (dyeZeroAt base d0 N dt n) N (fun _ _ => 0) (fun _ _ => 0) dt

end

/-- A first sanity example kept out of the claims: clipping inside the range
is the identity on integers. -/
theorem npClip_of_mem {α : Type} [LinearOrder α] {v lo hi : α}
    (h1 : lo ≤ v) (h2 : v ≤ hi) : npClip v lo hi = v := by
  unfold npClip
  rw [max_eq_left h1, min_eq_left h2]

/-- Clipping lands in the target interval whenever the interval is nonempty. -/
theorem npClip_mem {α : Type} [LinearOrder α] {lo hi : α} (v : α) (h : lo ≤ hi) :
    lo ≤ npClip v lo hi ∧ npClip v lo hi ≤ hi := by
  unfold npClip
  constructor
  · exact le_min (le_trans (le_max_right v lo) (le_refl _)) h
  · exact min_le_right _ _

/-- Bilinear sampling at exact integer in-range coordinates reads the field
directly: the floors are the coordinates themselves, the clips are
identities, and both fractional offsets vanish. -/
theorem bilinear_sample_int (f : ℤ → ℤ → ℝ) (H W : ℕ) (x y : ℤ)
    (hx0 : 0 ≤ x) (hx1 : x ≤ (W : ℤ) - 1) (hy0 : 0 ≤ y) (hy1 : y ≤ (H : ℤ) - 1) :
    bilinear_sample f H W (x : ℝ) (y : ℝ) = f y x := by
  simp only [bilinear_sample, Int.floor_intCast]
  rw [npClip_of_mem hx0 hx1, npClip_of_mem hy0 hy1]
  ring

/-- When the clipped corner indices coincide in both directions, the blend
collapses to the single corner value whatever the fractional offsets are. -/
theorem bilinear_sample_corner (f : ℤ → ℤ → ℝ) (H W : ℕ) (x y : ℝ)
    (hx : npClip (⌊x⌋ + 1) 0 ((W : ℤ) - 1) = npClip ⌊x⌋ 0 ((W : ℤ) - 1))
    (hy : npClip (⌊y⌋ + 1) 0 ((H : ℤ) - 1) = npClip ⌊y⌋ 0 ((H : ℤ) - 1)) :
    bilinear_sample f H W x y
      = f (npClip ⌊y⌋ 0 ((H : ℤ) - 1)) (npClip ⌊x⌋ 0 ((W : ℤ) - 1)) := by
  simp only [bilinear_sample]
  rw [hx, hy]
  ring

/-- C3: the claim as stated is false on the code: `build_grid(2)` has first
component `X` with `X[0,1] = 0`, not `j/N = 1/2` — with `indexing="ij"` the
first meshgrid output varies along the row index, not the column index. -/
theorem c3_counterexample :
    (build_grid 2).1 0 1 ≠ (1 : ℝ) / 2 ∧ (build_grid 2).1 0 1 = 0 := by
  constructor
  · norm_num [build_grid, linspace01]
  · norm_num [build_grid, linspace01]

/-- C3 (amended): for every resolution N > 0 and indices 0 ≤ i, j < N, the
arrays (X, Y) returned by build_grid satisfy X[i,j] = i/N and Y[i,j] = j/N
(the first component varies along the row index), all values lie in the
half-open interval [0,1), and consecutive entries differ by the step 1/N. -/
theorem c3_build_grid (N : ℕ) (i j : ℤ) (hN : 0 < N)
    (hi0 : 0 ≤ i) (hi : i < (N : ℤ)) (hj0 : 0 ≤ j) (hj : j < (N : ℤ)) :
    (build_grid N).1 i j = (i : ℝ) / (N : ℝ) ∧
    (build_grid N).2 i j = (j : ℝ) / (N : ℝ) ∧
    0 ≤ (build_grid N).1 i j ∧ (build_grid N).1 i j < 1 ∧
    0 ≤ (build_grid N).2 i j ∧ (build_grid N).2 i j < 1 ∧
    (build_grid N).1 (i + 1) j - (build_grid N).1 i j = 1 / (N : ℝ) := by
  have hNR : (0 : ℝ) < (N : ℝ) := by exact_mod_cast hN
  have hiR : (i : ℝ) < (N : ℝ) := by exact_mod_cast hi
  have hjR : (j : ℝ) < (N : ℝ) := by exact_mod_cast hj
  have hi0R : (0 : ℝ) ≤ (i : ℝ) := by exact_mod_cast hi0
  have hj0R : (0 : ℝ) ≤ (j : ℝ) := by exact_mod_cast hj0
  refine ⟨rfl, rfl, ?_, ?_, ?_, ?_, ?_⟩
  · exact div_nonneg hi0R hNR.le
  · exact (div_lt_one hNR).mpr hiR
  · exact div_nonneg hj0R hNR.le
  · exact (div_lt_one hNR).mpr hjR
  · show ((i + 1 : ℤ) : ℝ) / (N : ℝ) - (i : ℝ) / (N : ℝ) = 1 / (N : ℝ)
    push_cast
    field_simp

/-- Witness for C3 (amended) at N = 2, i = 0, j = 1. -/
theorem c3_build_grid_witness :
    0 < 2 ∧ (0 : ℤ) ≤ 0 ∧ (0 : ℤ) < (2 : ℕ) ∧ (0 : ℤ) ≤ 1 ∧ (1 : ℤ) < (2 : ℕ) ∧
    ((build_grid 2).1 0 1 = ((0 : ℤ) : ℝ) / ((2 : ℕ) : ℝ) ∧
     (build_grid 2).2 0 1 = ((1 : ℤ) : ℝ) / ((2 : ℕ) : ℝ) ∧
     0 ≤ (build_grid 2).1 0 1 ∧ (build_grid 2).1 0 1 < 1 ∧
     0 ≤ (build_grid 2).2 0 1 ∧ (build_grid 2).2 0 1 < 1 ∧
     (build_grid 2).1 (0 + 1) 1 - (build_grid 2).1 0 1 = 1 / ((2 : ℕ) : ℝ)) :=
  ⟨by decide, by decide, by decide, by decide, by decide,
   c3_build_grid 2 0 1 (by decide) (by decide) (by decide) (by decide) (by decide)⟩

/-- C5: bilinear_sample at exact integer coordinates (x, y) with
0 ≤ x ≤ W−1 and 0 ≤ y ≤ H−1 returns exactly field[y, x]; in the exact-real
embedding the fractional offsets are exactly zero and the blend weights are
exactly 0 and 1, so no deviation occurs.  Stated per channel: a C-channel
field is sampled channel by channel, so quantifying over all scalar fields
covers every channel depth. -/
theorem c5_bilinear_integer (f : ℤ → ℤ → ℝ) (H W : ℕ) (x y : ℤ)
    (hx0 : 0 ≤ x) (hx1 : x ≤ (W : ℤ) - 1) (hy0 : 0 ≤ y) (hy1 : y ≤ (H : ℤ) - 1) :
    bilinear_sample f H W (x : ℝ) (y : ℝ) = f y x :=
  bilinear_sample_int f H W x y hx0 hx1 hy0 hy1

/-- Witness for C5 on a non-constant 3×3 field at (x, y) = (2, 1). -/
theorem c5_bilinear_integer_witness :
    (0 : ℤ) ≤ 2 ∧ (2 : ℤ) ≤ (3 : ℕ) - 1 ∧ (0 : ℤ) ≤ 1 ∧ (1 : ℤ) ≤ (3 : ℕ) - 1 ∧
    bilinear_sample (fun a b => (a : ℝ) + 10 * (b : ℝ)) 3 3 ((2 : ℤ) : ℝ) ((1 : ℤ) : ℝ)
      = ((1 : ℤ) : ℝ) + 10 * ((2 : ℤ) : ℝ) :=
  ⟨by decide, by decide, by decide, by decide,
   c5_bilinear_integer (fun a b => (a : ℝ) + 10 * (b : ℝ)) 3 3 2 1
     (by decide) (by decide) (by decide) (by decide)⟩

/-- C6: bilinear_sample clamps out-of-range coordinates to the nearest edge:
sampling at (−5, −5) equals sampling at (0, 0), and sampling at
(W+5, H+5) equals sampling at (W−1, H−1), for every field with H, W ≥ 1.
Stated per channel, covering every channel depth. -/
theorem c6_bilinear_edge_clamp (f : ℤ → ℤ → ℝ) (H W : ℕ) (hH : 1 ≤ H) (hW : 1 ≤ W) :
    bilinear_sample f H W (-5) (-5) = bilinear_sample f H W 0 0 ∧
    bilinear_sample f H W ((W : ℝ) + 5) ((H : ℝ) + 5)
      = bilinear_sample f H W ((W : ℝ) - 1) ((H : ℝ) - 1) := by
  have hWZ : (1 : ℤ) ≤ (W : ℤ) := by exact_mod_cast hW
  have hHZ : (1 : ℤ) ≤ (H : ℤ) := by exact_mod_cast hH
  have hm5 : ⌊(-5 : ℝ)⌋ = -5 := by
    rw [Int.floor_eq_iff]
    norm_num
  have hWf : ⌊(W : ℝ) + 5⌋ = (W : ℤ) + 5 := by
    rw [Int.floor_eq_iff]
    constructor <;> push_cast <;> linarith
  have hHf : ⌊(H : ℝ) + 5⌋ = (H : ℤ) + 5 := by
    rw [Int.floor_eq_iff]
    constructor <;> push_cast <;> linarith
  constructor
  · have hL := bilinear_sample_corner f H W (-5) (-5)
      (by rw [hm5]; simp only [npClip]; omega)
      (by rw [hm5]; simp only [npClip]; omega)
    have hR := bilinear_sample_int f H W 0 0 (by omega) (by omega) (by omega) (by omega)
    push_cast at hR
    rw [hL, hm5]
    rw [show npClip (-5 : ℤ) 0 ((W : ℤ) - 1) = 0 from by simp only [npClip]; omega,
      show npClip (-5 : ℤ) 0 ((H : ℤ) - 1) = 0 from by simp only [npClip]; omega]
    exact hR.symm
  · have hL := bilinear_sample_corner f H W ((W : ℝ) + 5) ((H : ℝ) + 5)
      (by rw [hWf]; simp only [npClip]; omega)
      (by rw [hHf]; simp only [npClip]; omega)
    have hR := bilinear_sample_int f H W ((W : ℤ) - 1) ((H : ℤ) - 1)
      (by omega) (by omega) (by omega) (by omega)
    push_cast at hR
    rw [hL, hWf, hHf]
    rw [show npClip ((W : ℤ) + 5) 0 ((W : ℤ) - 1) = (W : ℤ) - 1 from by
        simp only [npClip]; omega,
      show npClip ((H : ℤ) + 5) 0 ((H : ℤ) - 1) = (H : ℤ) - 1 from by
        simp only [npClip]; omega]
    exact hR.symm

/-- Witness for C6 on a non-constant 4×3 field. -/
theorem c6_bilinear_edge_clamp_witness :
    1 ≤ 4 ∧ 1 ≤ 3 ∧
    (bilinear_sample (fun a b => (a : ℝ) + 10 * (b : ℝ)) 4 3 (-5) (-5)
        = bilinear_sample (fun a b => (a : ℝ) + 10 * (b : ℝ)) 4 3 0 0 ∧
     bilinear_sample (fun a b => (a : ℝ) + 10 * (b : ℝ)) 4 3 (((3 : ℕ) : ℝ) + 5) (((4 : ℕ) : ℝ) + 5)
        = bilinear_sample (fun a b => (a : ℝ) + 10 * (b : ℝ)) 4 3 (((3 : ℕ) : ℝ) - 1) (((4 : ℕ) : ℝ) - 1)) :=
  ⟨by decide, by decide,
   c6_bilinear_edge_clamp (fun a b => (a : ℝ) + 10 * (b : ℝ)) 4 3 (by decide) (by decide)⟩

/-- Advection through an everywhere-zero velocity field is the identity at
every in-range grid point: the backward trace lands exactly on the integer
grid and bilinear sampling there is exact. -/
theorem advect_zero (f : ℤ → ℤ → ℝ) (H W : ℕ) (u v : ℤ → ℤ → ℝ) (dt : ℝ)
    (hu : ∀ i j, u i j = 0) (hv : ∀ i j, v i j = 0) (i j : ℤ)
    (hi0 : 0 ≤ i) (hi1 : i ≤ (H : ℤ) - 1) (hj0 : 0 ≤ j) (hj1 : j ≤ (W : ℤ) - 1) :
    advect f H W u v dt i j = f i j := by
  unfold advect
  have hjr0 : (0 : ℝ) ≤ (j : ℝ) := by exact_mod_cast hj0
  have hjr1 : (j : ℝ) ≤ (W : ℝ) - 1 := by
    have h : (j : ℝ) ≤ (((W : ℤ) - 1 : ℤ) : ℝ) := by exact_mod_cast hj1
    push_cast at h
    linarith
  have hir0 : (0 : ℝ) ≤ (i : ℝ) := by exact_mod_cast hi0
  have hir1 : (i : ℝ) ≤ (H : ℝ) - 1 := by
    have h : (i : ℝ) ≤ (((H : ℤ) - 1 : ℤ) : ℝ) := by exact_mod_cast hi1
    push_cast at h
    linarith
  simp only [hu, hv, mul_zero, sub_zero]
  rw [npClip_of_mem hjr0 hjr1, npClip_of_mem hir0 hir1]
  exact bilinear_sample_int f H W j i hj0 hj1 hi0 hi1

/-- C7: advect with an all-zero velocity field returns its input field
unchanged at every in-range grid point, for every dt: the zero displacement
reduces to exact integer-grid sampling.  Stated per channel. -/
theorem c7_advect_zero_velocity (f : ℤ → ℤ → ℝ) (H W : ℕ) (u v : ℤ → ℤ → ℝ) (dt : ℝ)
    (hu : ∀ i j, u i j = 0) (hv : ∀ i j, v i j = 0) (i j : ℤ)
    (hi0 : 0 ≤ i) (hi1 : i ≤ (H : ℤ) - 1) (hj0 : 0 ≤ j) (hj1 : j ≤ (W : ℤ) - 1) :
    advect f H W u v dt i j = f i j :=
  advect_zero f H W u v dt hu hv i j hi0 hi1 hj0 hj1

/-- Witness for C7 on a non-constant 3×3 field at (i, j) = (1, 2), dt = 7. -/
theorem c7_advect_zero_velocity_witness :
    (0 : ℤ) ≤ 1 ∧ (1 : ℤ) ≤ (3 : ℕ) - 1 ∧ (0 : ℤ) ≤ 2 ∧ (2 : ℤ) ≤ (3 : ℕ) - 1 ∧
    advect (fun a b => (a : ℝ) + 10 * (b : ℝ)) 3 3 (fun _ _ => 0) (fun _ _ => 0) 7 1 2
      = (1 : ℝ) + 10 * (2 : ℝ) := by
  refine ⟨by decide, by decide, by decide, by decide, ?_⟩
  have h := c7_advect_zero_velocity (fun a b => (a : ℝ) + 10 * (b : ℝ)) 3 3
    (fun _ _ => 0) (fun _ _ => 0) 7 (fun _ _ => rfl) (fun _ _ => rfl) 1 2
    (by decide) (by decide) (by decide) (by decide)
  simpa using h

/-- C4: the claim as stated is false on the code: the half-width is computed
with Python `int`, which truncates, not with `round`.  At σ = 9/10 the code
builds half-width `int(max(1, 2.7)) = 2` while `max(1, round(3σ)) = 3`. -/
theorem c4_counterexample :
    gaussianRadius (9 / 10 : ℝ) ≠ max 1 (round ((3 : ℝ) * (9 / 10))) := by
  have h1 : gaussianRadius (9 / 10 : ℝ) = 2 := by
    unfold gaussianRadius
    rw [show max (1 : ℝ) (9 / 10 * 3) = 27 / 10 by rw [max_eq_right] <;> norm_num]
    rw [Int.floor_eq_iff]
    norm_num
  have h2 : round ((3 : ℝ) * (9 / 10)) = 3 := by
    rw [round_eq, Int.floor_eq_iff]
    norm_num
  rw [h1, h2]
  decide

/-- C4 (amended): for every σ > 0, gaussian_blur builds its 1D kernel with
half-width `int(max(1, 3σ)) = max(1, ⌊3σ⌋)` (truncation, not rounding) and
weights proportional to `exp(−k²/2σ²)` for offsets k in
[−half-width, half-width], normalized so the weights sum to 1. -/
theorem c4_gaussian_kernel (σ : ℝ) (k : ℤ) (hσ : 0 < σ) :
    gaussianRadius σ = max 1 ⌊3 * σ⌋ ∧
    gaussianWeight σ k
      = Real.exp (-((k : ℝ) ^ 2) / (2 * σ ^ 2)) /
          ∑ m in Finset.Icc (-gaussianRadius σ) (gaussianRadius σ),
            Real.exp (-((m : ℝ) ^ 2) / (2 * σ ^ 2)) ∧
    ∑ m in Finset.Icc (-gaussianRadius σ) (gaussianRadius σ), gaussianWeight σ m = 1 := by
  have hrad : (1 : ℤ) ≤ gaussianRadius σ := by
    unfold gaussianRadius
    exact Int.le_floor.mpr (by exact_mod_cast le_max_left 1 (σ * 3))
  have hnorm : 0 < gaussianNorm σ := by
    apply Finset.sum_pos (fun m _ => Real.exp_pos _)
    exact Finset.nonempty_Icc.mpr (by omega)
  refine ⟨?_, rfl, ?_⟩
  · unfold gaussianRadius
    rw [mul_comm 3 σ]
    rcases le_total 1 (σ * 3) with h | h
    · rw [max_eq_right h, max_eq_right]
      exact Int.le_floor.mpr (by exact_mod_cast h)
    · rw [max_eq_left h, max_eq_left]
      · exact Int.floor_one
      · calc ⌊σ * 3⌋ ≤ ⌊(1 : ℝ)⌋ := Int.floor_le_floor h
          _ = 1 := Int.floor_one
  · unfold gaussianWeight
    rw [← Finset.sum_div]
    show gaussianNorm σ / gaussianNorm σ = 1
    exact div_self hnorm.ne'

/-- Witness for C4 (amended) at σ = 1, k = 0. -/
theorem c4_gaussian_kernel_witness :
    (0 : ℝ) < 1 ∧
    (gaussianRadius 1 = max 1 ⌊(3 : ℝ) * 1⌋ ∧
     gaussianWeight 1 0
       = Real.exp (-(((0 : ℤ) : ℝ) ^ 2) / (2 * (1 : ℝ) ^ 2)) /
           ∑ m in Finset.Icc (-gaussianRadius 1) (gaussianRadius 1),
             Real.exp (-((m : ℝ) ^ 2) / (2 * (1 : ℝ) ^ 2)) ∧
     ∑ m in Finset.Icc (-gaussianRadius 1) (gaussianRadius 1), gaussianWeight 1 m = 1) :=
  ⟨by norm_num, c4_gaussian_kernel 1 0 (by norm_num)⟩

/-- Separability of the two-pass zero-padded same-length convolution: for an
arbitrary kernel of offset weights `w` on `-r .. r`, the axis-0 pass followed
by the axis-1 pass agrees, at every output point with an in-range row index,
with the double sum against the outer-product kernel. -/
theorem convolve_separable (w : ℤ → ℝ) (r : ℤ) (H W : ℕ) (f : ℤ → ℤ → ℝ) (i j : ℤ)
    (hi0 : 0 ≤ i) (hi1 : i < (H : ℤ)) :
    convolveAxis1 w r H W (fun a b => convolveAxis0 w r H W f a b) i j
      = ∑ k in Finset.Icc (-r) r, ∑ l in Finset.Icc (-r) r,
          w k * w l * zeroExt H W f (i - k) (j - l) := by
  unfold convolveAxis1
  have key : ∀ l : ℤ, zeroExt H W (fun a b => convolveAxis0 w r H W f a b) i (j - l)
      = ∑ k in Finset.Icc (-r) r, w k * zeroExt H W f (i - k) (j - l) := by
    intro l
    by_cases hcase : 0 ≤ j - l ∧ j - l < (W : ℤ)
    · rw [show zeroExt H W (fun a b => convolveAxis0 w r H W f a b) i (j - l)
          = convolveAxis0 w r H W f i (j - l) from by
            unfold zeroExt
            rw [if_pos ⟨hi0, hi1, hcase.1, hcase.2⟩]]
      rfl
    · rw [show zeroExt H W (fun a b => convolveAxis0 w r H W f a b) i (j - l) = 0 from by
          unfold zeroExt
          rw [if_neg (by tauto)]]
      symm
      apply Finset.sum_eq_zero
      intro k _
      rw [show zeroExt H W f (i - k) (j - l) = 0 from by
          unfold zeroExt
          rw [if_neg (by tauto)],
        mul_zero]
  calc ∑ l in Finset.Icc (-r) r,
        w l * zeroExt H W (fun a b => convolveAxis0 w r H W f a b) i (j - l)
      = ∑ l in Finset.Icc (-r) r,
          w l * ∑ k in Finset.Icc (-r) r, w k * zeroExt H W f (i - k) (j - l) := by
        exact Finset.sum_congr rfl fun l _ => by rw [key l]
    _ = ∑ l in Finset.Icc (-r) r, ∑ k in Finset.Icc (-r) r,
          w l * (w k * zeroExt H W f (i - k) (j - l)) := by
        exact Finset.sum_congr rfl fun l _ => Finset.mul_sum _ _ _
    _ = ∑ k in Finset.Icc (-r) r, ∑ l in Finset.Icc (-r) r,
          w k * w l * zeroExt H W f (i - k) (j - l) := by
        rw [Finset.sum_comm]
        exact Finset.sum_congr rfl fun k _ => Finset.sum_congr rfl fun l _ => by ring

/-- C9: for every field and σ > 0, with each spatial dimension at least the
kernel length 2·half-width+1, the two-pass gaussian_blur (1D convolution
along axis 0 then axis 1, zero-padded) equals, at every output grid point,
the direct 2D convolution with the outer-product Gaussian kernel under the
same zero-padding edge policy, in exact arithmetic.  Stated per channel. -/
theorem c9_separable_equals_2d (σ : ℝ) (H W : ℕ) (f : ℤ → ℤ → ℝ) (i j : ℤ)
    (hσ : 0 < σ)
    (hH : 2 * gaussianRadius σ + 1 ≤ (H : ℤ)) (hW : 2 * gaussianRadius σ + 1 ≤ (W : ℤ))
    (hi0 : 0 ≤ i) (hi1 : i < (H : ℤ)) (hj0 : 0 ≤ j) (hj1 : j < (W : ℤ)) :
    gaussian_blur H W σ f i j = gaussian2dConv σ H W f i j := by
  unfold gaussian_blur
  rw [if_neg (not_le.mpr hσ)]
  rw [convolve_separable (gaussianWeight σ) (gaussianRadius σ) H W f i j hi0 hi1]
  rfl

/-- Evaluation of the half-width at the pipeline's σ = 1: `int(max(1, 3)) = 3`. -/
theorem gaussianRadius_one : gaussianRadius 1 = 3 := by
  unfold gaussianRadius
  rw [show max (1 : ℝ) (1 * 3) = 3 by rw [max_eq_right] <;> norm_num]
  rw [Int.floor_eq_iff]
  norm_num

/-- Witness for C9 at σ = 1 on a non-constant field, H = W = 7, (i, j) = (3, 2). -/
theorem c9_separable_equals_2d_witness :
    (0 : ℝ) < 1 ∧ 2 * gaussianRadius 1 + 1 ≤ ((7 : ℕ) : ℤ) ∧
    (0 : ℤ) ≤ 3 ∧ (3 : ℤ) < ((7 : ℕ) : ℤ) ∧ (0 : ℤ) ≤ 2 ∧ (2 : ℤ) < ((7 : ℕ) : ℤ) ∧
    gaussian_blur 7 7 1 (fun a b => (a : ℝ) + 10 * (b : ℝ)) 3 2
      = gaussian2dConv 1 7 7 (fun a b => (a : ℝ) + 10 * (b : ℝ)) 3 2 :=
  ⟨by norm_num, by rw [gaussianRadius_one]; norm_num, by decide, by decide, by decide,
   by decide,
   c9_separable_equals_2d 1 7 7 (fun a b => (a : ℝ) + 10 * (b : ℝ)) 3 2 (by norm_num)
     (by rw [gaussianRadius_one]; norm_num) (by rw [gaussianRadius_one]; norm_num)
     (by decide) (by decide) (by decide) (by decide)⟩

/-- C8: if the velocity is held at zero for every step, then after each step
the residual dye − base_dye equals 0.995 times the previous step's residual,
and after n steps it equals 0.995^n times the initial residual, so the dye
buffer converges geometrically toward base_dye. -/
theorem c8_zero_velocity_dissipation (base d0 : Dye) (N : ℕ) (dt : ℝ) (n : ℕ)
    (i j : ℤ) (c : Fin 3)
    (hi0 : 0 ≤ i) (hi1 : i < (N : ℤ)) (hj0 : 0 ≤ j) (hj1 : j < (N : ℤ)) :
    dyeZeroAt base d0 N dt (n + 1) i j c - base i j c
        = 0.995 * (dyeZeroAt base d0 N dt n i j c - base i j c) ∧
    dyeZeroAt base d0 N dt n i j c - base i j c
        = 0.995 ^ n * (d0 i j c - base i j c) := by
  have steprel : ∀ m : ℕ, dyeZeroAt base d0 N dt (m + 1) i j c - base i j c
      = 0.995 * (dyeZeroAt base d0 N dt m i j c - base i j c) := by
    intro m
    show stepDye base (dyeZeroAt base d0 N dt m) N (fun _ _ => 0) (fun _ _ => 0) dt i j c
        - base i j c = _
    unfold stepDye
    have h := advect_zero (fun a b => dyeZeroAt base d0 N dt m a b c) N N
      (fun _ _ => 0) (fun _ _ => 0) dt (fun _ _ => rfl) (fun _ _ => rfl) i j
      hi0 (by omega) hj0 (by omega)
    simp only [h]
    ring
  refine ⟨steprel n, ?_⟩
  induction n with
  | zero => simp [dyeZeroAt]
  | succ m ih =>
    rw [steprel m, ih]
    ring

/-- Witness for C8 at a 1×1 grid with constant base 0 and initial dye 8,
after one step. -/
theorem c8_zero_velocity_dissipation_witness :
    (0 : ℤ) ≤ 0 ∧ (0 : ℤ) < ((1 : ℕ) : ℤ) ∧
    (dyeZeroAt (fun _ _ _ => (0 : ℝ)) (fun _ _ _ => (8 : ℝ)) 1 2 (1 + 1) 0 0 0
          - (fun _ _ _ => (0 : ℝ)) 0 0 (0 : Fin 3)
        = 0.995 * (dyeZeroAt (fun _ _ _ => (0 : ℝ)) (fun _ _ _ => (8 : ℝ)) 1 2 1 0 0 0
          - (fun _ _ _ => (0 : ℝ)) 0 0 (0 : Fin 3)) ∧
     dyeZeroAt (fun _ _ _ => (0 : ℝ)) (fun _ _ _ => (8 : ℝ)) 1 2 1 0 0 0
          - (fun _ _ _ => (0 : ℝ)) 0 0 (0 : Fin 3)
        = 0.995 ^ 1 * ((fun _ _ _ => (8 : ℝ)) 0 0 (0 : Fin 3)
          - (fun _ _ _ => (0 : ℝ)) 0 0 (0 : Fin 3))) :=
  ⟨by decide, by decide,
   c8_zero_velocity_dissipation (fun _ _ _ => (0 : ℝ)) (fun _ _ _ => (8 : ℝ)) 1 2 1 0 0 0
     (by decide) (by decide) (by decide) (by decide)⟩

/-- Convex blends with weights t and 1−t, t ∈ [0,1], stay inside any interval
containing both endpoint values (in the code's `value*(1−t) + value*t` form). -/
theorem convex_bounds (lo hi a b t : ℝ) (ha1 : lo ≤ a) (ha2 : a ≤ hi)
    (hb1 : lo ≤ b) (hb2 : b ≤ hi) (ht0 : 0 ≤ t) (ht1 : t ≤ 1) :
    lo ≤ a * (1 - t) + b * t ∧ a * (1 - t) + b * t ≤ hi := by
  constructor <;> nlinarith

/-- Bilinear sampling at a clipped-in-range coordinate pair is a convex
combination of in-range field values, hence stays inside any interval
containing all of them. -/
theorem bilinear_sample_bounds (f : ℤ → ℤ → ℝ) (H W : ℕ) (x y lo hi : ℝ)
    (hH : 1 ≤ H) (hW : 1 ≤ W)
    (hf : ∀ a b : ℤ, 0 ≤ a → a < (H : ℤ) → 0 ≤ b → b < (W : ℤ) →
      lo ≤ f a b ∧ f a b ≤ hi)
    (hx0 : 0 ≤ x) (hx1 : x ≤ (W : ℝ) - 1) (hy0 : 0 ≤ y) (hy1 : y ≤ (H : ℝ) - 1) :
    lo ≤ bilinear_sample f H W x y ∧ bilinear_sample f H W x y ≤ hi := by
  have hWZ : (0 : ℤ) ≤ (W : ℤ) - 1 := by
    have : (1 : ℤ) ≤ (W : ℤ) := by exact_mod_cast hW
    omega
  have hHZ : (0 : ℤ) ≤ (H : ℤ) - 1 := by
    have : (1 : ℤ) ≤ (H : ℤ) := by exact_mod_cast hH
    omega
  have hfx0 : (0 : ℤ) ≤ ⌊x⌋ := Int.floor_nonneg.mpr hx0
  have hfx1 : ⌊x⌋ ≤ (W : ℤ) - 1 := by
    have h : (⌊x⌋ : ℝ) ≤ (W : ℝ) - 1 := le_trans (Int.floor_le x) hx1
    have h2 : (⌊x⌋ : ℝ) ≤ (((W : ℤ) - 1 : ℤ) : ℝ) := by push_cast; linarith
    exact_mod_cast h2
  have hfy0 : (0 : ℤ) ≤ ⌊y⌋ := Int.floor_nonneg.mpr hy0
  have hfy1 : ⌊y⌋ ≤ (H : ℤ) - 1 := by
    have h : (⌊y⌋ : ℝ) ≤ (H : ℝ) - 1 := le_trans (Int.floor_le y) hy1
    have h2 : (⌊y⌋ : ℝ) ≤ (((H : ℤ) - 1 : ℤ) : ℝ) := by push_cast; linarith
    exact_mod_cast h2
  have hx1mem := npClip_mem (⌊x⌋ + 1) hWZ
  have hy1mem := npClip_mem (⌊y⌋ + 1) hHZ
  have hval : ∀ a b : ℤ, 0 ≤ a → a ≤ (H : ℤ) - 1 → 0 ≤ b → b ≤ (W : ℤ) - 1 →
      lo ≤ f a b ∧ f a b ≤ hi :=
    fun a b h1 h2 h3 h4 => hf a b h1 (by omega) h3 (by omega)
  have ht0 : 0 ≤ x - (⌊x⌋ : ℝ) := sub_nonneg.mpr (Int.floor_le x)
  have ht1 : x - (⌊x⌋ : ℝ) ≤ 1 := by
    have := Int.lt_floor_add_one x
    linarith
  have hs0 : 0 ≤ y - (⌊y⌋ : ℝ) := sub_nonneg.mpr (Int.floor_le y)
  have hs1 : y - (⌊y⌋ : ℝ) ≤ 1 := by
    have := Int.lt_floor_add_one y
    linarith
  simp only [bilinear_sample]
  rw [npClip_of_mem hfx0 hfx1, npClip_of_mem hfy0 hfy1]
  have hv00 := hval ⌊y⌋ ⌊x⌋ hfy0 hfy1 hfx0 hfx1
  have hv01 := hval ⌊y⌋ (npClip (⌊x⌋ + 1) 0 ((W : ℤ) - 1)) hfy0 hfy1 hx1mem.1 hx1mem.2
  have hv10 := hval (npClip (⌊y⌋ + 1) 0 ((H : ℤ) - 1)) ⌊x⌋ hy1mem.1 hy1mem.2 hfx0 hfx1
  have hv11 := hval (npClip (⌊y⌋ + 1) 0 ((H : ℤ) - 1)) (npClip (⌊x⌋ + 1) 0 ((W : ℤ) - 1))
    hy1mem.1 hy1mem.2 hx1mem.1 hx1mem.2
  have htop := convex_bounds lo hi _ _ _ hv00.1 hv00.2 hv01.1 hv01.2 ht0 ht1
  have hbot := convex_bounds lo hi _ _ _ hv10.1 hv10.2 hv11.1 hv11.2 ht0 ht1
  exact convex_bounds lo hi _ _ _ htop.1 htop.2 hbot.1 hbot.2 hs0 hs1

/-- Advection of a field whose in-range values lie in an interval produces
values in the same interval, for every velocity field and dt: the
backward-traced coordinates are clipped in range, so the bilinear weights
all lie in [0,1]. -/
theorem advect_bounds (f : ℤ → ℤ → ℝ) (H W : ℕ) (u v : ℤ → ℤ → ℝ) (dt : ℝ)
    (i j : ℤ) (lo hi : ℝ) (hH : 1 ≤ H) (hW : 1 ≤ W)
    (hf : ∀ a b : ℤ, 0 ≤ a → a < (H : ℤ) → 0 ≤ b → b < (W : ℤ) →
      lo ≤ f a b ∧ f a b ≤ hi) :
    lo ≤ advect f H W u v dt i j ∧ advect f H W u v dt i j ≤ hi := by
  have hWR : (0 : ℝ) ≤ (W : ℝ) - 1 := by
    have : (1 : ℝ) ≤ (W : ℝ) := by exact_mod_cast hW
    linarith
  have hHR : (0 : ℝ) ≤ (H : ℝ) - 1 := by
    have : (1 : ℝ) ≤ (H : ℝ) := by exact_mod_cast hH
    linarith
  have hx := npClip_mem ((j : ℝ) - dt * u i j) hWR
  have hy := npClip_mem ((i : ℝ) - dt * v i j) hHR
  exact bilinear_sample_bounds f H W _ _ lo hi hH hW hf hx.1 hx.2 hy.1 hy.2

/-- The initial dye is clamped to [0, 255] by its final `np.clip`, whatever
the noise values are. -/
theorem create_initial_dye_bounds (noise : ℤ → ℤ → Fin 3 → ℝ) (N : ℕ) (i j : ℤ)
    (c : Fin 3) :
    0 ≤ create_initial_dye noise N i j c ∧ create_initial_dye noise N i j c ≤ 255 := by
  unfold create_initial_dye
  exact npClip_mem _ (by norm_num)

/-- C10: throughout every run the working dye buffer's in-range values stay
within [0, 255] after every step — the initial dye is clamped to [0, 255],
advection is a convex combination of current in-range dye values (the
backward-traced coordinates are clipped in range, so all bilinear weights
lie in [0, 1]), and the dissipation blend is a convex combination with the
clamped base_dye — and consequently the clamp applied at frame emission
never changes any value.  Holds for every noise array and configuration
with resolution ≥ 1, at every step count n. -/
theorem c10_dye_range_invariant (noise : ℤ → ℤ → Fin 3 → ℝ) (N : ℕ)
    (dt strength : ℝ) (steps n : ℕ) (hN : 1 ≤ N) (i j : ℤ) (c : Fin 3)
    (hi0 : 0 ≤ i) (hi1 : i < (N : ℤ)) (hj0 : 0 ≤ j) (hj1 : j < (N : ℤ)) :
    0 ≤ dyeAt noise N dt strength steps n i j c ∧
    dyeAt noise N dt strength steps n i j c ≤ 255 ∧
    npClip (dyeAt noise N dt strength steps n i j c) 0 255
      = dyeAt noise N dt strength steps n i j c := by
  have inv : ∀ m : ℕ, ∀ a b : ℤ, ∀ d : Fin 3, 0 ≤ a → a < (N : ℤ) → 0 ≤ b →
      b < (N : ℤ) →
      0 ≤ dyeAt noise N dt strength steps m a b d ∧
      dyeAt noise N dt strength steps m a b d ≤ 255 := by
    intro m
    induction m with
    | zero =>
      intro a b d ha0 ha1 hb0 hb1
      exact create_initial_dye_bounds noise N a b d
    | succ k ih =>
      intro a b d ha0 ha1 hb0 hb1
      have hstep : dyeAt noise N dt strength steps (k + 1) a b d
          = 0.995 * advect (fun p q => dyeAt noise N dt strength steps k p q d) N N
              (velocityU N ((k : ℝ) / (steps : ℝ) * 6) strength)
              (velocityV N ((k : ℝ) / (steps : ℝ) * 6) strength) dt a b
            + 0.005 * create_initial_dye noise N a b d := rfl
      rw [hstep]
      have hadv := advect_bounds (fun p q => dyeAt noise N dt strength steps k p q d) N N
        (velocityU N ((k : ℝ) / (steps : ℝ) * 6) strength)
        (velocityV N ((k : ℝ) / (steps : ℝ) * 6) strength) dt a b 0 255 hN hN
        (fun p q h1 h2 h3 h4 => ih p q d h1 h2 h3 h4)
      have hbase := create_initial_dye_bounds noise N a b d
      constructor
      · linarith [hadv.1, hbase.1]
      · linarith [hadv.2, hbase.2]
  have h := inv n i j c hi0 hi1 hj0 hj1
  exact ⟨h.1, h.2, npClip_of_mem h.1 h.2⟩

/-- Witness for C10 at N = 1, one step, zero noise, (i, j, c) = (0, 0, 0). -/
theorem c10_dye_range_invariant_witness :
    1 ≤ 1 ∧ (0 : ℤ) ≤ 0 ∧ (0 : ℤ) < ((1 : ℕ) : ℤ) ∧
    (0 ≤ dyeAt zeroNoise 1 1 1 1 1 0 0 0 ∧
     dyeAt zeroNoise 1 1 1 1 1 0 0 0 ≤ 255 ∧
     npClip (dyeAt zeroNoise 1 1 1 1 1 0 0 0) 0 255 = dyeAt zeroNoise 1 1 1 1 1 0 0 0) :=
  ⟨by decide, by decide, by decide,
   c10_dye_range_invariant zeroNoise 1 1 1 1 1 (by decide) 0 0 0
     (by decide) (by decide) (by decide) (by decide)⟩

/-- Every emitted 8-bit channel value is at most 255: the emission clip lands
in [0, 255] and the uint8 cast truncates toward zero. -/
theorem toFrame_le (d : Dye) (i j : ℤ) (c : Fin 3) : toFrame d i j c ≤ 255 := by
  unfold toFrame
  have h := npClip_mem (d i j c) (show (0 : ℝ) ≤ 255 by norm_num)
  have hfl : ⌊npClip (d i j c) 0 255⌋ ≤ 255 := by
    calc ⌊npClip (d i j c) 0 255⌋ ≤ ⌊(255 : ℝ)⌋ := Int.floor_le_floor h.2
      _ = 255 := by rw [Int.floor_eq_iff]; norm_num
  exact Int.toNat_le.mpr hfl

/-- C1: the claim as stated is false on the code: with resolution 2 and one
step, run_simulation raises inside the first loop iteration — the σ = 1 blur
kernel has length 7, `np.convolve(mode="same")` therefore pads the velocity
field to shape 7×7, and the backward-trace subtraction in advect fails to
broadcast a 2×2 grid against it — so no frame sequence is returned at all. -/
theorem c1_counterexample :
    run_simulation zeroNoise ⟨2, 1, 0.6, 1.4⟩ = none := by
  unfold run_simulation
  rw [if_neg (by norm_num), if_pos (by norm_num)]

/-- C1 (amended): for every configuration with steps = S > 0 and resolution
N ≥ 7 (at least the σ = 1 smoothing kernel length; below that the first loop
iteration raises a numpy shape error), run_simulation returns a sequence of
exactly S frames in generation order, each an N×N×3 array of 8-bit values,
so every channel value lies in [0, 255].  The frame type fixes three
channels; N×N shape and generation order are the index convention and the
`List.range` order of `framesList`. -/
theorem c1_run_emits_frames (noise : ℤ → ℤ → Fin 3 → ℝ) (cfg : SimulationConfig)
    (hres : 7 ≤ cfg.resolution) (hsteps : 0 < cfg.steps) :
    ∃ fs : List Frame,
      run_simulation noise cfg = some fs ∧ (fs.length : ℤ) = cfg.steps ∧
      ∀ fr ∈ fs, ∀ i j : ℤ, ∀ c : Fin 3, fr i j c ≤ 255 := by
  refine ⟨framesList noise cfg.resolution.toNat cfg.dt cfg.strength cfg.steps.toNat,
    ?_, ?_, ?_⟩
  · unfold run_simulation
    rw [if_neg (by omega), if_neg (by omega)]
  · unfold framesList
    rw [List.length_map, List.length_range]
    omega
  · intro fr hfr i j c
    unfold framesList at hfr
    obtain ⟨k, _, rfl⟩ := List.mem_map.mp hfr
    exact toFrame_le _ i j c

/-- Witness for C1 (amended) at resolution 7, one step. -/
theorem c1_run_emits_frames_witness :
    (7 : ℤ) ≤ 7 ∧ (0 : ℤ) < 1 ∧
    (∃ fs : List Frame,
      run_simulation zeroNoise ⟨7, 1, 0.6, 1.4⟩ = some fs ∧ (fs.length : ℤ) = 1 ∧
      ∀ fr ∈ fs, ∀ i j : ℤ, ∀ c : Fin 3, fr i j c ≤ 255) :=
  ⟨by decide, by decide, c1_run_emits_frames zeroNoise ⟨7, 1, 0.6, 1.4⟩ (by decide) (by decide)⟩

/-- C2: the claim as stated is false on the code: run_simulation performs no
configuration validation at all.  With steps = 0 (non-positive) the run does
not fail: the loop body never executes and the empty frame list is returned
normally, with no configuration error of any kind. -/
theorem c2_counterexample :
    run_simulation zeroNoise ⟨8, 0, 0.6, 1.4⟩ = some [] := by
  unfold run_simulation
  rw [if_neg (by norm_num), if_neg (by norm_num)]
  unfold framesList
  rfl

/-- C2 (amended): run_simulation validates nothing before the loop.  For
every configuration with non-positive steps and non-negative resolution the
run returns normally with the empty frame sequence instead of raising a
configuration error ("no partial frames" holds; "fail fast" does not — and a
non-finite dt or strength is never rejected either, the loop simply runs
with it). -/
theorem c2_no_validation (noise : ℤ → ℤ → Fin 3 → ℝ) (cfg : SimulationConfig)
    (hsteps : cfg.steps ≤ 0) (hres : 0 ≤ cfg.resolution) :
    run_simulation noise cfg = some [] := by
  unfold run_simulation
  rw [if_neg (by omega), if_neg (by omega)]
  have h0 : cfg.steps.toNat = 0 := by omega
  rw [h0]
  unfold framesList
  rfl

/-- Witness for C2 (amended) at resolution 8, steps = −3. -/
theorem c2_no_validation_witness :
    (-3 : ℤ) ≤ 0 ∧ (0 : ℤ) ≤ 8 ∧
    run_simulation zeroNoise ⟨8, -3, 0.6, 1.4⟩ = some [] :=
  ⟨by decide, by decide, c2_no_validation zeroNoise ⟨8, -3, 0.6, 1.4⟩ (by decide) (by decide)⟩
